import Mathlib

/-!
Verification of the `enum-range` attribute macro (crates/enum-range/src/lib.rs).

The macro expands `#[range(...)]`-tagged enum variants into one variant per
integer of the range and optionally emits a membership-check method per range.
The development below embeds the expansion pipeline of `lib.rs` — attribute
collection, the two-queue merge walk, variant-identifier synthesis and
range-checker generation — as executable Lean definitions.

Integer arithmetic: the Rust code computes on `usize`.  We model the values as
`Nat` and apply reduction modulo `2 ^ 64` exactly where the Rust expressions
can overflow (release-mode wrapping semantics; debug builds would panic at the
same inputs, which the accompanying results record where it matters).
-/

namespace EnumRange

/-- Size of the `usize` domain (64-bit targets). -/
def USIZE : Nat := 2 ^ 64

/-- Wrapping 64-bit subtraction `a - b`, Rust release-mode `usize` semantics. -/
def wsub (a b : Nat) : Nat := (USIZE + a % USIZE - b % USIZE) % USIZE

/-- Wrapping 64-bit addition `a + b`, Rust release-mode `usize` semantics. -/
def wadd (a b : Nat) : Nat := (a + b) % USIZE

/-- The `Range` struct of `lib.rs` (lines 42-49): arguments of a
`#[range(format = ..., start = ..., end = ..., range_check = ...)]` attribute.
`start` and `end` are `usize`; `format` and `range_check` are optional. -/
structure Range where
  format : Option String
  start : Nat
  «end» : Nat
  range_check : Option String
deriving DecidableEq

/-- The shape of a `syn::Fields`: unit, tuple or named-field variant payload. -/
inductive Fields where
  | unit : Fields
  | unnamed : Nat → Fields
  | named : List String → Fields
deriving DecidableEq

/-- An attribute on an enum variant: either a well-formed `#[range(...)]`
attribute carrying its parsed arguments, or any other attribute (kept
abstract as its surface text). -/
inductive Attr where
  | range : Range → Attr
  | other : String → Attr
deriving DecidableEq

/-- Does the attribute's path equal `range` (the `attr.path().is_ident("range")`
test of `lib.rs` line 113)? -/
def Attr.isRange : Attr → Bool
  | .range _ => true
  | .other _ => false

/-- A `syn::Variant`: attributes, identifier, fields, optional discriminant.
The discriminant expression is modelled as an optional integer literal. -/
structure Variant where
  attrs : List Attr
  ident : String
  fields : Fields
  discriminant : Option Nat
deriving DecidableEq

/-- A `syn::DataEnum`: the ordered variant list of the enum declaration. -/
structure DataEnum where
  variants : List Variant
deriving DecidableEq

/-- First `#[range(...)]` attribute of the list, parsed.  Together with the
presence test of `lib.rs` lines 110-117 this is the effect of
`Range::from_variant` (darling): `some` exactly when a range attribute is
present. -/
def findRange : List Attr → Option Range
  | [] => none
  | .range r :: _ => some r
  | .other _ :: rest => findRange rest

/-- `Range::from_variant(variant)` combined with the attribute-presence test
(`lib.rs` lines 108-117): the parsed range arguments of the variant, if any. -/
def Range.from_variant (v : Variant) : Option Range :=
  findRange v.attrs

/-- Remove the first attribute whose path is `range`
(`variant.attrs.remove(index.unwrap())` at `lib.rs` line 119, with `index`
the first position whose path is `range`). -/
def removeFirstRange : List Attr → List Attr
  | [] => []
  | a :: rest => if a.isRange then rest else a :: removeFirstRange rest

/-- The variant after the collection pass of `lib.rs` lines 107-123 mutated it:
its first `range` attribute, when present, has been removed. -/
def stripRangeAttr (v : Variant) : Variant :=
  { v with attrs := removeFirstRange v.attrs }

/-- The queue of `(variant_index, range)` pairs pushed at `lib.rs` line 121,
collected by one forward scan starting at position `i`. -/
def rangesFrom : Nat → List Variant → List (Nat × Range)
  | _, [] => []
  | i, v :: vs =>
    match Range.from_variant v with
    | some r => (i, r) :: rangesFrom (i + 1) vs
    | none => rangesFrom (i + 1) vs

/-- Does `pat` occur at the head of the list? (prefix test used by the
textual replacement below). -/
def matchesAt : List Char → List Char → Bool
  | [], _ => true
  | _ :: _, [] => false
  | p :: ps, c :: cs => p == c && matchesAt ps cs

/-- Replace every non-overlapping occurrence of `pat`, scanning left to right
— the semantics of Rust's `str::replace`.  The fuel argument (instantiated
with the length of the subject) only makes the recursion structural; it never
runs out because each step consumes at least one character.  (An empty
pattern is treated as matching nowhere; the call sites below only use the
non-empty patterns `"\x7bindex\x7d"` and `"\x7bvalue\x7d"`.) -/
def replaceListAux (pat rep : List Char) : Nat → List Char → List Char
  | 0, l => l
  | _ + 1, [] => []
  | fuel + 1, c :: cs =>
    if !pat.isEmpty && matchesAt pat (c :: cs) then
      rep ++ replaceListAux pat rep fuel (List.drop (pat.length - 1) cs)
    else
      c :: replaceListAux pat rep fuel cs

/-- Rust's `str::replace(pat, rep)`: all non-overlapping occurrences,
left to right. -/
def rustReplace (s pat rep : String) : String :=
  ⟨replaceListAux pat.data rep.data s.data.length s.data⟩

/-- `generate_variant_ident` (`lib.rs` lines 209-219): the name of the
variant synthesized for offset `index` / value `value` of a range.  Note the
default format: `format!("{}\x7b\x7b\x7d\x7d", variant.ident)` renders the
escape `\x7b\x7b\x7d\x7d` as the two literal characters `\x7b\x7d`, so the
default is the variant name followed by `"\x7b\x7d"`. -/
def generate_variant_ident (variant : Variant) (range : Range)
    (index value : Nat) : String :=
  let fmt := range.format.getD (variant.ident ++ "\x7b\x7d")
  rustReplace (rustReplace fmt "\x7bindex\x7d" (toString index))
    "\x7bvalue\x7d" (toString value)

/-- Modelled from the spec: validity of a synthesized name as an identifier of
the output target (`proc_macro2::Ident::new`, called at `lib.rs` line 218,
panics on an invalid identifier).  ASCII form: nonempty, first character
alphabetic or an underscore, the rest alphanumeric or underscores. -/
def isValidIdentStr (s : String) : Bool :=
  match s.data with
  | [] => false
  | c :: cs => (c.isAlpha || c == '_') && cs.all fun d => d.isAlphanum || d == '_'

/-- The data of one generated check method: its name and the two bound
literals interpolated into the emitted `quote!` block
(`lib.rs` lines 194-205). -/
structure RangeCheck where
  method_name : String
  start : Nat
  «end» : Nat
deriving DecidableEq

/-- `generate_range_checker` (`lib.rs` lines 185-206): `none` when
`range_check` or the numeric repr is absent, otherwise the check method named
`range_check` with the range's own bounds. -/
def generate_range_checker (repr : Option String) (range : Range) :
    Option RangeCheck :=
  if range.range_check.isNone || repr.isNone then none
  else some { method_name := range.range_check.getD ""
              start := range.start
              «end» := range.«end» }

/-- Meaning of the emitted check method body
(`let value = self as #repr; value >= #range_start && value <= #range_end`,
`lib.rs` lines 201-202), as a predicate on the instance's numeric
representation value. -/
def RangeCheck.eval (rc : RangeCheck) (value : Int) : Bool :=
  decide ((rc.start : Int) ≤ value) && decide (value ≤ (rc.«end» : Int))

/-- The loop bound `range.end - range.start + 1` of `lib.rs` line 145,
computed in `usize` arithmetic. -/
def rangeCount (range : Range) : Nat :=
  wadd (wsub range.«end» range.start) 1

/-- The expansion loop of `lib.rs` lines 145-156: one synthesized variant per
`range_index` below the loop bound, with the (already stripped) placeholder's
attributes, a synthesized identifier, unit fields, and discriminant
`range.start + range_index`. -/
def expandRange (variant : Variant) (range : Range) : List Variant :=
  (List.range (rangeCount range)).map fun range_index =>
    let range_value := wadd range.start range_index
    { attrs := variant.attrs
      ident := generate_variant_ident variant range range_index range_value
      fields := Fields.unit
      discriminant := some range_value }

/-- The merge walk of `lib.rs` lines 136-176 over the (mutated) variant list
and the pending-range queue, also accumulating the generated check methods
(`enum_impl`).  The `none` result is the `unreachable!()` branch of line 170:
the current position is strictly after the next pending range's position. -/
def mergeWalk (repr : Option String) :
    Nat → List Variant → List (Nat × Range) →
      Option (List Variant × List RangeCheck)
  | _, [], _ => some ([], [])
  | index, variant :: rest, [] =>
    match mergeWalk repr (index + 1) rest [] with
    | some (nv, cs) => some (variant :: nv, cs)
    | none => none
  | index, variant :: rest, (range_idx, range) :: pending =>
    if index < range_idx then
      match mergeWalk repr (index + 1) rest ((range_idx, range) :: pending) with
      | some (nv, cs) => some (variant :: nv, cs)
      | none => none
    else if index = range_idx then
      match mergeWalk repr (index + 1) rest pending with
      | some (nv, cs) =>
        some (expandRange variant range ++ nv,
          (generate_range_checker repr range).toList ++ cs)
      | none => none
    else
      none

/-- `generate_enum_ranges` (`lib.rs` lines 99-182): collect the ranges
(mutating the variants by stripping the `range` attributes), return the
enum unchanged when there are none, otherwise run the merge walk.  The
result is the new variant list and the generated check methods; `none` is
the `unreachable!()` fault. -/
def generate_enum_ranges (data_enum : DataEnum) (repr : Option String) :
    Option (List Variant × List RangeCheck) :=
  let ranges := rangesFrom 0 data_enum.variants
  if ranges.isEmpty then some (data_enum.variants, [])
  else mergeWalk repr 0 (data_enum.variants.map stripRangeAttr) ranges

/-- Spec-side description of the transformation (the §3 invariant): each
member is replaced in place — a range-tagged member by its expansion, any
other member kept unchanged. -/
def expandMember (v : Variant) : List Variant :=
  match Range.from_variant v with
  | some r => expandRange (stripRangeAttr v) r
  | none => [v]

/-- Spec-side description of the generated check set: one optional check per
range-tagged member, none for a literal member. -/
def memberChecks (repr : Option String) (v : Variant) : List RangeCheck :=
  match Range.from_variant v with
  | some r => (generate_range_checker repr r).toList
  | none => []

/-- Modelled from the spec (§8): the claimed output length
`len(literal members) + sum(max(0, end-start+1) for each range)`, the
inner term computed over the integers. -/
def specClaimedLength (vs : List Variant) : Nat :=
  (vs.map fun v =>
    match Range.from_variant v with
    | some r => (max 0 ((r.«end» : Int) - (r.start : Int) + 1)).toNat
    | none => 1).sum

/-! ## Helper lemmas: the merge walk realizes in-place replacement -/

theorem removeFirstRange_of_none (attrs : List Attr)
    (h : findRange attrs = none) : removeFirstRange attrs = attrs := by
  induction attrs with
  | nil => rfl
  | cons a rest ih =>
    cases a with
    | range r => simp [findRange] at h
    | other s =>
      simp only [findRange] at h
      simp [removeFirstRange, Attr.isRange, ih h]

theorem stripRangeAttr_of_not_range (v : Variant)
    (h : Range.from_variant v = none) : stripRangeAttr v = v := by
  simp [stripRangeAttr, removeFirstRange_of_none v.attrs h]

theorem rangesFrom_ge (vs : List Variant) :
    ∀ (i : Nat) (p : Nat × Range), p ∈ rangesFrom i vs → i ≤ p.1 := by
  induction vs with
  | nil => intro i p hp; simp [rangesFrom] at hp
  | cons v vs ih =>
    intro i p hp
    unfold rangesFrom at hp
    cases h : Range.from_variant v with
    | some r =>
      rw [h] at hp
      rcases List.mem_cons.mp hp with h1 | h1
      · subst h1; exact Nat.le_refl i
      · exact Nat.le_of_succ_le (ih (i + 1) p h1)
    | none =>
      rw [h] at hp
      exact Nat.le_of_succ_le (ih (i + 1) p hp)

/-- One copy step of the walk: when every pending range sits strictly ahead of
the current position, the current variant is copied unchanged. -/
theorem mergeWalk_copy (repr : Option String) (i : Nat) (v : Variant)
    (vs : List Variant) (q : List (Nat × Range))
    (hq : ∀ p ∈ q, i < p.1) :
    mergeWalk repr i (v :: vs) q =
      match mergeWalk repr (i + 1) vs q with
      | some (nv, cs) => some (v :: nv, cs)
      | none => none := by
  cases q with
  | nil => rfl
  | cons p rest =>
    obtain ⟨j, r⟩ := p
    have hij : i < j := hq (j, r) (List.mem_cons_self _ _)
    simp [mergeWalk, hij]

/-- The merge walk over the stripped variants and the collected queue is the
in-place replacement of each range-tagged variant by its expansion, with the
corresponding check methods collected in order. -/
theorem mergeWalk_collect (repr : Option String) (vs : List Variant) :
    ∀ (i : Nat),
      mergeWalk repr i (vs.map stripRangeAttr) (rangesFrom i vs) =
        some (vs.flatMap expandMember, vs.flatMap (memberChecks repr)) := by
  induction vs with
  | nil => intro i; rfl
  | cons v vs ih =>
    intro i
    cases h : Range.from_variant v with
    | some r =>
      simp only [List.map_cons, rangesFrom, h, List.flatMap_cons]
      simp [mergeWalk, ih (i + 1), expandMember, memberChecks, h]
    | none =>
      have hstrip : stripRangeAttr v = v := stripRangeAttr_of_not_range v h
      simp only [List.map_cons, rangesFrom, h, hstrip]
      rw [mergeWalk_copy repr i v (vs.map stripRangeAttr) (rangesFrom (i + 1) vs)
        (fun p hp => Nat.lt_of_succ_le (rangesFrom_ge vs (i + 1) p hp))]
      rw [ih (i + 1)]
      simp [expandMember, memberChecks, h]

theorem rangesFrom_nil_iff (vs : List Variant) (i : Nat)
    (h : rangesFrom i vs = []) :
    ∀ v ∈ vs, Range.from_variant v = none := by
  induction vs generalizing i with
  | nil => intro v hv; simp at hv
  | cons v vs ih =>
    intro w hw
    unfold rangesFrom at h
    cases hv : Range.from_variant v with
    | some r => rw [hv] at h; simp at h
    | none =>
      rw [hv] at h
      rcases List.mem_cons.mp hw with h1 | h1
      · subst h1; exact hv
      · exact ih (i + 1) h w h1

theorem flatMap_expandMember_of_all_none (vs : List Variant)
    (h : ∀ v ∈ vs, Range.from_variant v = none) :
    vs.flatMap expandMember = vs := by
  induction vs with
  | nil => rfl
  | cons v rest ih =>
    simp only [List.flatMap_cons, expandMember, h v (List.mem_cons_self _ _)]
    rw [ih fun w hw => h w (List.mem_cons_of_mem _ hw)]
    rfl

theorem flatMap_memberChecks_of_all_none (repr : Option String)
    (vs : List Variant) (h : ∀ v ∈ vs, Range.from_variant v = none) :
    vs.flatMap (memberChecks repr) = [] := by
  induction vs with
  | nil => rfl
  | cons v rest ih =>
    simp only [List.flatMap_cons, memberChecks, h v (List.mem_cons_self _ _)]
    rw [ih fun w hw => h w (List.mem_cons_of_mem _ hw)]
    rfl

/-- The whole pipeline never takes the `unreachable!()` branch and computes
exactly the in-place replacement plus the per-range check methods. -/
theorem generate_eq (data_enum : DataEnum) (repr : Option String) :
    generate_enum_ranges data_enum repr =
      some (data_enum.variants.flatMap expandMember,
        data_enum.variants.flatMap (memberChecks repr)) := by
  unfold generate_enum_ranges
  cases hq : rangesFrom 0 data_enum.variants with
  | nil =>
    have hnone := rangesFrom_nil_iff data_enum.variants 0 hq
    simp only [List.isEmpty_nil, if_true]
    rw [flatMap_expandMember_of_all_none data_enum.variants hnone,
      flatMap_memberChecks_of_all_none repr data_enum.variants hnone]
  | cons p q =>
    rw [← hq]
    have hne : (rangesFrom 0 data_enum.variants).isEmpty = false := by
      rw [hq]; rfl
    simp only [hne, Bool.false_eq_true, if_false]
    exact mergeWalk_collect repr data_enum.variants 0

/-! ## Helper lemmas: lengths and `usize` arithmetic -/

theorem length_expandRange (v : Variant) (r : Range) :
    (expandRange v r).length = rangeCount r := by
  simp [expandRange]

theorem length_flatMap_expandMember (vs : List Variant) :
    (vs.flatMap expandMember).length =
      (vs.map fun v =>
        match Range.from_variant v with
        | some r => rangeCount r
        | none => 1).sum := by
  induction vs with
  | nil => rfl
  | cons v rest ih =>
    simp only [List.flatMap_cons, List.length_append, List.map_cons,
      List.sum_cons, ih]
    congr 1
    cases h : Range.from_variant v with
    | some r => simp [expandMember, h, length_expandRange]
    | none => simp [expandMember, h]

theorem wadd_eq_of_lt (a b : Nat) (h : a + b < USIZE) : wadd a b = a + b := by
  unfold wadd
  exact Nat.mod_eq_of_lt h

theorem rangeCount_of_le (r : Range) (h1 : r.start ≤ r.«end»)
    (h2 : r.«end» < USIZE) (h3 : r.«end» - r.start + 1 < USIZE) :
    rangeCount r = r.«end» - r.start + 1 := by
  have hs : r.start < USIZE := Nat.lt_of_le_of_lt h1 h2
  unfold rangeCount wadd wsub
  rw [Nat.mod_eq_of_lt h2, Nat.mod_eq_of_lt hs, Nat.add_sub_assoc h1,
    Nat.add_mod_left,
    Nat.mod_eq_of_lt (Nat.lt_of_le_of_lt (Nat.sub_le _ _) h2),
    Nat.mod_eq_of_lt h3]

/-! ## Concrete inputs used by witnesses and counterexamples -/

/-- The range of spec §8 Scenario A: template with both placeholders. -/
def puRange : Range :=
  { format := some "PU\x7bindex\x7d_\x7bvalue\x7d", start := 10, «end» := 12
    range_check := some "is_pu" }

def puVariant : Variant :=
  { attrs := [], ident := "PrivateUse", fields := Fields.unit
    discriminant := none }

def puCheck : RangeCheck := { method_name := "is_pu", start := 10, «end» := 12 }

/-- A range with no `format`, exercising the default-format path. -/
def privateUseRange : Range :=
  { format := none, start := 206, «end» := 210, range_check := none }

def privateUseVariant : Variant :=
  { attrs := [], ident := "PrivateUse", fields := Fields.unit
    discriminant := none }

/-- An inverted range (`start = 7 > 5 = end`), no check requested. -/
def invRange : Range :=
  { format := some "X\x7bindex\x7d", start := 7, «end» := 5
    range_check := none }

def invVariant : Variant :=
  { attrs := [Attr.range invRange], ident := "Inv", fields := Fields.unit
    discriminant := none }

def invEnum : DataEnum := { variants := [invVariant] }

/-- An inverted range with a requested check. -/
def invCheckRange : Range :=
  { format := some "N\x7bindex\x7d", start := 7, «end» := 5
    range_check := some "never" }

def invCheckVariant : Variant :=
  { attrs := [Attr.range invCheckRange], ident := "N", fields := Fields.unit
    discriminant := none }

def invCheckEnum : DataEnum := { variants := [invCheckVariant] }

/-- The extreme full-domain range `0 ..= 2^64 - 1`. -/
def fullRange : Range :=
  { format := some "F\x7bindex\x7d", start := 0, «end» := 2 ^ 64 - 1
    range_check := none }

def fullVariant : Variant :=
  { attrs := [], ident := "F", fields := Fields.unit, discriminant := none }

/-- The Scenario C range (`start = 6, end = 5`) with a requested check. -/
def scRange : Range :=
  { format := some "S\x7bvalue\x7d", start := 6, «end» := 5
    range_check := some "sc" }

def scVariant : Variant :=
  { attrs := [], ident := "S", fields := Fields.unit, discriminant := none }

/-- A placeholder variant with surrounding attributes and non-unit fields. -/
def r10 : Range :=
  { format := some "B\x7bindex\x7d", start := 5, «end» := 5
    range_check := none }

def v10 : Variant :=
  { attrs := [Attr.other "derive(Debug)", Attr.range r10, Attr.other "serde"]
    ident := "B", fields := Fields.named ["a"], discriminant := none }

/-- The single member v10's range expands to. -/
def m10 : Variant :=
  { attrs := [Attr.other "derive(Debug)", Attr.other "serde"], ident := "B0"
    fields := Fields.unit, discriminant := some 5 }

/-! ## The claims -/

/-- C1: the claim says a range without `name_template` names its members by
the default `"\x7bname\x7d\x7bindex\x7d"` (so `PrivateUse0`, `PrivateUse1`, ...),
which is also what the crate's own doc comment (`lib.rs` line 38) promises.
The code instead builds the default via `format!("{}\x7b\x7b\x7d\x7d", ident)`,
i.e. the literal text `PrivateUse\x7b\x7d`, which contains neither placeholder,
so every member of the range gets the same name `PrivateUse\x7b\x7d` — an
invalid identifier on which `Ident::new` panics.  This theorem evaluates
`generate_variant_ident` at the failing input. -/
theorem claim_C1_bug :
    generate_variant_ident privateUseVariant privateUseRange 0 206 =
      "PrivateUse\x7b\x7d" ∧
    generate_variant_ident privateUseVariant privateUseRange 0 206 ≠
      "PrivateUse0" ∧
    isValidIdentStr
      (generate_variant_ident privateUseVariant privateUseRange 0 206) =
      false := by
  decide

/-- C2 counterexample: the claim's length formula
`len(literals) + sum(max(0, end-start+1))` predicts length `0` for an enum
whose only member carries the inverted range `start = 7, end = 5`, but the
code's loop bound `end - start + 1` wraps in `usize` arithmetic to
`2^64 - 1`, so the expansion has `2^64 - 1` members, not `0`. -/
theorem claim_C2_counterexample :
    specClaimedLength invEnum.variants = 0 ∧
    (generate_enum_ranges invEnum none).map (fun p => p.1.length) =
      some (2 ^ 64 - 1) ∧
    (2 ^ 64 - 1 : Nat) ≠ 0 := by
  refine ⟨by decide, ?_, by decide⟩
  rw [generate_eq]
  have h1 : Range.from_variant invVariant = some invRange := rfl
  have h2 : rangeCount invRange = 2 ^ 64 - 1 := by decide
  simp only [Option.map_some']
  rw [length_flatMap_expandMember]
  simp [invEnum, h1, h2]

/-- C2 (amended): for every input sequence the output length equals the sum,
over the members, of `1` for a literal member and of the loop bound
`end - start + 1` computed in wrapping 64-bit (`usize`) arithmetic for a
range member.  For `start ≤ end` (not the full domain) that bound is
`end - start + 1`; a range with `start = end + 1` contributes `0`; any other
inverted range contributes `2^64 - (start - end - 1)`. -/
theorem claim_C2 (data_enum : DataEnum) (repr : Option String) :
    (generate_enum_ranges data_enum repr).map (fun p => p.1.length) =
      some ((data_enum.variants.map fun v =>
        match Range.from_variant v with
        | some r => rangeCount r
        | none => 1).sum) := by
  rw [generate_eq]
  simp only [Option.map_some']
  rw [length_flatMap_expandMember]

/-- C3 counterexample: the claim quantifies over every range with
`start ≤ end`, but for the full-domain range `start = 0, end = 2^64 - 1` the
loop bound `end - start + 1` wraps to `0`, so the range expands to no members
at all and the discriminants are not `start, ..., end`. -/
theorem claim_C3_counterexample :
    fullRange.start ≤ fullRange.«end» ∧
    expandRange fullVariant fullRange = [] ∧
    ¬ ((expandRange fullVariant fullRange).map (fun m => m.discriminant) =
        (List.range (fullRange.«end» - fullRange.start + 1)).map
          (fun i => some (fullRange.start + i))) := by
  have hc : rangeCount fullRange = 0 := by decide
  have he : expandRange fullVariant fullRange = [] := by
    unfold expandRange
    rw [hc]
    rfl
  refine ⟨by decide, he, ?_⟩
  rw [he]
  intro hcontra
  have hlen := congrArg List.length hcontra
  simp only [List.length_nil, List.length_map, List.length_range] at hlen
  exact absurd hlen (by decide)

/-- C3 (amended): for every range with `start ≤ end` whose size
`end - start + 1` fits in `usize` (every such range except the full domain
`0 ..= 2^64 - 1`, where the size computation wraps to zero), the
discriminants of the expansion are exactly `start, start+1, ..., end`, each
once, ascending, no gaps. -/
theorem claim_C3 (v : Variant) (r : Range) (h1 : r.start ≤ r.«end»)
    (h2 : r.«end» < USIZE) (h3 : r.«end» - r.start + 1 < USIZE) :
    (expandRange v r).map (fun m => m.discriminant) =
      (List.range (r.«end» - r.start + 1)).map (fun i => some (r.start + i)) := by
  unfold expandRange
  rw [rangeCount_of_le r h1 h2 h3, List.map_map]
  apply List.map_congr_left
  intro i hi
  have hi' : i < r.«end» - r.start + 1 := List.mem_range.mp hi
  have hlt : r.start + i < USIZE := by omega
  simp [Function.comp, wadd_eq_of_lt r.start i hlt]

/-- Witness for C3 at Scenario A's range `10 ..= 12`. -/
theorem claim_C3_witness :
    (expandRange puVariant puRange).map (fun m => m.discriminant) =
      [some 10, some 11, some 12] := by
  have h := claim_C3 puVariant puRange (by decide) (by decide) (by decide)
  exact h.trans (by decide)

/-- C4: the generated variant list is the original ordered sequence with
every range-tagged member replaced in place by its expansion
(`expandMember`): non-range members pass through unchanged in their original
relative order, nothing is duplicated or dropped. -/
theorem claim_C4 (data_enum : DataEnum) (repr : Option String) :
    (generate_enum_ranges data_enum repr).map Prod.fst =
      some (data_enum.variants.flatMap expandMember) := by
  rw [generate_eq]
  rfl

/-- C5: a range without `range_check` yields no check; a range with
`range_check` but no numeric repr yields no check; a range with both yields
exactly the one check named `range_check` with the range's own bounds — and
the pipeline emits exactly the per-member check lists, in order. -/
theorem claim_C5 :
    (∀ (repr : Option String) (r : Range), r.range_check = none →
        generate_range_checker repr r = none) ∧
    (∀ r : Range, generate_range_checker none r = none) ∧
    (∀ (reprName name : String) (r : Range), r.range_check = some name →
        generate_range_checker (some reprName) r =
          some { method_name := name, start := r.start, «end» := r.«end» }) ∧
    (∀ (data_enum : DataEnum) (repr : Option String),
        (generate_enum_ranges data_enum repr).map Prod.snd =
          some (data_enum.variants.flatMap (memberChecks repr))) := by
  refine ⟨?_, ?_, ?_, ?_⟩
  · intro repr r h
    simp [generate_range_checker, h]
  · intro r
    simp [generate_range_checker]
  · intro reprName name r h
    simp [generate_range_checker, h]
  · intro data_enum repr
    rw [generate_eq]
    rfl

/-- Witness for C5: the Scenario A range with and without a repr. -/
theorem claim_C5_witness :
    generate_range_checker (some "u16") puRange =
      some { method_name := "is_pu", start := 10, «end» := 12 } ∧
    generate_range_checker none puRange = none :=
  ⟨claim_C5.2.2.1 "u16" "is_pu" puRange rfl, claim_C5.2.1 puRange⟩

/-- C6: every generated check, applied to the numeric representation value of
an instance, returns true exactly when that value lies between the
originating range's `start` and `end` inclusive (the emitted body
`value >= start && value <= end`). -/
theorem claim_C6 (repr : Option String) (r : Range) (rc : RangeCheck)
    (h : generate_range_checker repr r = some rc) (value : Int) :
    rc.eval value = true ↔
      ((r.start : Int) ≤ value ∧ value ≤ (r.«end» : Int)) := by
  unfold generate_range_checker at h
  split at h
  · exact absurd h (by simp)
  · rw [Option.some_inj] at h
    subst h
    simp [RangeCheck.eval]

/-- Witness for C6: the `is_pu` check accepts representation value 11. -/
theorem claim_C6_witness : puCheck.eval 11 = true :=
  (claim_C6 (some "u16") puRange puCheck (by decide) 11).mpr (by decide)

/-- C7: for a range with a template, the names of the expanded members are the
template with every occurrence of `"\x7bindex\x7d"` textually replaced by the
zero-based offset and every occurrence of `"\x7bvalue\x7d"` by the member's
value; any other text — unrecognized placeholders included — is left
verbatim (the replacement is plain text substitution, `rustReplace`). -/
theorem claim_C7 (v : Variant) (r : Range) (tmpl : String)
    (hf : r.format = some tmpl) (h1 : r.start ≤ r.«end»)
    (h2 : r.«end» < USIZE) (h3 : r.«end» - r.start + 1 < USIZE) :
    (expandRange v r).map (fun m => m.ident) =
      (List.range (r.«end» - r.start + 1)).map fun i =>
        rustReplace (rustReplace tmpl "\x7bindex\x7d" (toString i))
          "\x7bvalue\x7d" (toString (r.start + i)) := by
  unfold expandRange
  rw [rangeCount_of_le r h1 h2 h3, List.map_map]
  apply List.map_congr_left
  intro i hi
  have hi' : i < r.«end» - r.start + 1 := List.mem_range.mp hi
  have hlt : r.start + i < USIZE := by omega
  simp [Function.comp, generate_variant_ident, hf,
    wadd_eq_of_lt r.start i hlt]

/-- Witness for C7: Scenario A, template `"PU\x7bindex\x7d_\x7bvalue\x7d"`
over `10 ..= 12`. -/
theorem claim_C7_witness :
    (expandRange puVariant puRange).map (fun m => m.ident) =
      ["PU0_10", "PU1_11", "PU2_12"] := by
  have h := claim_C7 puVariant puRange "PU\x7bindex\x7d_\x7bvalue\x7d" rfl
    (by decide) (by decide) (by decide)
  exact h.trans (by decide)

/-- C8 counterexample: for the inverted range `start = 7, end = 5` with a
requested check and a repr present, the check is indeed emitted — but the
range does not expand to zero members: the wrapped loop bound gives
`2^64 - 1` of them. -/
theorem claim_C8_counterexample :
    (generate_enum_ranges invCheckEnum (some "u8")).map Prod.snd =
      some [{ method_name := "never", start := 7, «end» := 5 }] ∧
    ¬ ((generate_enum_ranges invCheckEnum (some "u8")).map
        (fun p => p.1.length) = some 0) := by
  constructor
  · rw [generate_eq]
    rfl
  · rw [generate_eq]
    have h1 : Range.from_variant invCheckVariant = some invCheckRange := rfl
    have h2 : rangeCount invCheckRange = 2 ^ 64 - 1 := by decide
    simp only [Option.map_some']
    rw [length_flatMap_expandMember]
    simp only [invCheckEnum, List.map_cons, List.map_nil, h1, h2,
      List.sum_cons, List.sum_nil, Option.some_inj]
    decide

/-- C8 (amended): for every inverted range (`end < start`) with `range_check`
and a repr present, the check method is still emitted, named as requested
with the inverted bounds, and it returns false on every representation
value; but the range expands to zero members only when `start = end + 1` —
any other inverted range expands to `2^64 - (start - end - 1)` members under
the wrapping `usize` loop bound (debug builds panic on the underflow
instead). -/
theorem claim_C8 (v : Variant) (r : Range) (reprName name : String)
    (hc : r.range_check = some name) (hinv : r.«end» < r.start)
    (hs : r.start < USIZE) :
    generate_range_checker (some reprName) r =
      some { method_name := name, start := r.start, «end» := r.«end» } ∧
    (∀ value : Int,
      RangeCheck.eval { method_name := name, start := r.start, «end» := r.«end» }
        value = false) ∧
    ((expandRange v r).length = 0 ↔ r.start = r.«end» + 1) := by
  refine ⟨by simp [generate_range_checker, hc], ?_, ?_⟩
  · intro value
    have hlt : (r.«end» : Int) < (r.start : Int) := by exact_mod_cast hinv
    by_cases hv : (r.start : Int) ≤ value
    · have hnb : ¬ (value ≤ (r.«end» : Int)) := by omega
      simp [RangeCheck.eval, hnb]
    · simp [RangeCheck.eval, hv]
  · rw [length_expandRange]
    have hE : r.«end» < USIZE := Nat.lt_trans hinv hs
    have ha : r.«end» % USIZE = r.«end» := Nat.mod_eq_of_lt hE
    have hb : r.start % USIZE = r.start := Nat.mod_eq_of_lt hs
    unfold rangeCount wadd wsub
    rw [ha, hb]
    have h3 : USIZE + r.«end» - r.start < USIZE := by omega
    rw [Nat.mod_eq_of_lt h3]
    constructor
    · intro h0
      have h4 : USIZE + r.«end» - r.start + 1 = USIZE := by
        have hle : USIZE + r.«end» - r.start + 1 ≤ USIZE := by omega
        rcases Nat.lt_or_eq_of_le hle with hl | he'
        · rw [Nat.mod_eq_of_lt hl] at h0
          omega
        · exact he'
      omega
    · intro h0
      have h4 : USIZE + r.«end» - r.start + 1 = USIZE := by omega
      rw [h4, Nat.mod_self]

/-- Witness for C8 at Scenario C (`start = 6, end = 5`): the check is emitted
and unsatisfiable, and this particular inverted range does expand to zero
members. -/
theorem claim_C8_witness :
    generate_range_checker (some "u8") scRange =
      some { method_name := "sc", start := 6, «end» := 5 } ∧
    (∀ value : Int,
      RangeCheck.eval { method_name := "sc", start := 6, «end» := 5 } value =
        false) ∧
    ((expandRange scVariant scRange).length = 0 ↔ (6 : Nat) = 5 + 1) :=
  claim_C8 scVariant scRange "u8" "sc" rfl (by decide) (by decide)

/-- C9: the merge walk's internal-consistency fault — the `unreachable!()`
branch taken when the current position is strictly after the next pending
range's declared position — is never reached, for any input: the pipeline
always produces a result. -/
theorem claim_C9 (data_enum : DataEnum) (repr : Option String) :
    (generate_enum_ranges data_enum repr).isSome = true := by
  rw [generate_eq]
  rfl

/-- C10: every member synthesized from a range is a unit (fieldless) variant
regardless of the placeholder's fields, and carries exactly the
placeholder's attributes with the first `range` attribute removed — so all
other attributes are duplicated onto every synthesized member. -/
theorem claim_C10 (v : Variant) (r : Range)
    (h : Range.from_variant v = some r) :
    ∀ m ∈ expandMember v,
      m.fields = Fields.unit ∧ m.attrs = removeFirstRange v.attrs := by
  intro m hm
  simp only [expandMember, h, expandRange, List.mem_map] at hm
  obtain ⟨i, hi, rfl⟩ := hm
  exact ⟨rfl, rfl⟩

/-- Witness for C10: a placeholder with named fields and two other
attributes; its synthesized member is unit-fielded and keeps both other
attributes. -/
theorem claim_C10_witness :
    m10.fields = Fields.unit ∧ m10.attrs = removeFirstRange v10.attrs :=
  claim_C10 v10 r10 rfl m10 (by decide)

end EnumRange
